import Mathlib

/-!
Verification of the geometric path-reconstruction and coordinate-transformation
pipeline: segment clustering (`find_groups`), zigzag filtering
(`filter_zigzag`), spline smoothing (`smooth_path`) from
`app/utils/geometry_utils.py`, and the world-file driven coordinate transform
(`CoordinateService.transform_coordinates`) from
`app/services/coordinate_service.py`.

Numbers are embedded as exact rationals (`ℚ`).  External collaborators are
abstracted as parameters: the scipy spline fit (`splprep`/`splev`) is a
function parameter returning `Option` (with `none` standing for a raised
numerical exception), the pyproj reprojection is a function parameter
`Pt → Pt`, and the float `atan2`-degree direction of `predict_direction` is a
function parameter `Pt → Pt → ℚ`.  The comparison `sqrt d < t` of Euclidean
distances is embedded as the equivalent exact test `0 < t ∧ d < t^2` on
squared distances; the equivalence with `Real.sqrt` is proved below.
-/

namespace TreeProj

/-- A point: a pair of rational coordinates. -/
abbrev Pt := ℚ × ℚ

/-- A segment: an ordered pair of points (`seg[0]`, `seg[1]` in the source). -/
abbrev Seg := Pt × Pt

/-- Squared Euclidean distance between two points; `distance` in
`geometry_utils.py` is `sqrt` of this. -/
def dist2 (p q : Pt) : ℚ := (p.1 - q.1) ^ 2 + (p.2 - q.2) ^ 2

/-- Embeds the comparison `distance(p, q) < t` of `geometry_utils.py`, i.e.
`sqrt (dist2 p q) < t`, as the exact rational test `0 < t ∧ dist2 p q < t^2`.
`distLt_iff_sqrt` below proves this is the same predicate. -/
def distLt (p q : Pt) (t : ℚ) : Bool := decide (0 < t ∧ dist2 p q < t ^ 2)

/-- Source `are_connected_or_close(seg1, seg2, threshold)`: some endpoint of
`seg1` is strictly within `threshold` of some endpoint of `seg2`. -/
def are_connected_or_close (s1 s2 : Seg) (t : ℚ) : Bool :=
  distLt s1.1 s2.1 t || distLt s1.1 s2.2 t || distLt s1.2 s2.1 t || distLt s1.2 s2.2 t

/-- One pass of the inner `for seg in segments` scan of the BFS in
`find_groups`: every not-yet-visited segment of the scan list connected to
`cur` is added to the visited set, the group, and the queue, in scan order.
Returns `(visited, group, queue)` after the pass. -/
def expand (t : ℚ) (cur : Seg) :
    List Seg → List Seg → List Seg → List Seg → List Seg × List Seg × List Seg
  | [], visited, group, queue => (visited, group, queue)
  | s :: rest, visited, group, queue =>
    if s ∉ visited ∧ are_connected_or_close cur s t = true then
      expand t cur rest (s :: visited) (group ++ [s]) (queue ++ [s])
    else
      expand t cur rest visited group queue

/-- Bound used to show the BFS `while queue` loop of `find_groups`
terminates: distinct unvisited segments plus the queue length. -/
def bfsMeasure (segs visited queue : List Seg) : ℕ :=
  (segs.toFinset \ visited.toFinset).card + queue.length

/-- The `while queue` BFS loop of `find_groups`: pop the head of the queue,
scan the whole segment list for fresh neighbours, repeat.  Returns the
finished `(group, visited)`. -/
def bfsLoop (segs : List Seg) (t : ℚ) :
    List Seg → List Seg → List Seg → List Seg × List Seg
  | [], visited, group => (group, visited)
  | cur :: rest, visited, group =>
    bfsLoop segs t (expand t cur segs visited group rest).2.2
      (expand t cur segs visited group rest).1
      (expand t cur segs visited group rest).2.1
termination_by queue visited _ => bfsMeasure segs visited queue
decreasing_by
  have key : ∀ (l visited2 group2 queue2 : List Seg), (∀ x ∈ l, x ∈ segs) →
      bfsMeasure segs (expand t cur l visited2 group2 queue2).1
        (expand t cur l visited2 group2 queue2).2.2
      ≤ bfsMeasure segs visited2 queue2 := by
    intro l
    induction l with
    | nil => intro visited2 group2 queue2 _; simp [expand]
    | cons s rest2 ih =>
      intro visited2 group2 queue2 hsub
      have hs : s ∈ segs := hsub s (by simp)
      have hrest : ∀ x ∈ rest2, x ∈ segs := fun x hx => hsub x (by simp [hx])
      by_cases hc : s ∉ visited2 ∧ are_connected_or_close cur s t = true
      · rw [expand, if_pos hc]
        refine le_trans (ih _ _ _ hrest) ?_
        have hmem : s ∈ segs.toFinset \ visited2.toFinset := by
          simp [List.mem_toFinset, hs, hc.1]
        have hset : segs.toFinset \ (s :: visited2).toFinset
            = (segs.toFinset \ visited2.toFinset).erase s := by
          ext x
          simp [List.mem_toFinset, Finset.mem_erase, Finset.mem_sdiff]
          tauto
        have hcard : (segs.toFinset \ (s :: visited2).toFinset).card
            = (segs.toFinset \ visited2.toFinset).card - 1 := by
          rw [hset, Finset.card_erase_of_mem hmem]
        have hpos : 0 < (segs.toFinset \ visited2.toFinset).card :=
          Finset.card_pos.mpr ⟨s, hmem⟩
        simp only [bfsMeasure, hcard, List.length_append, List.length_cons,
          List.length_nil]
        omega
      · rw [expand, if_neg hc]
        exact ih _ _ _ hrest
  simp only [bfsMeasure, List.length_cons]
  have h := key segs visited group rest (fun x hx => hx)
  simp only [bfsMeasure] at h
  omega

/-- The outer `for segment in segments` loop of `find_groups`: skip visited
segments, otherwise start a new group seeded with the segment and run the BFS
loop; groups are appended in discovery order. -/
def goGroups (segs : List Seg) (t : ℚ) :
    List Seg → List Seg → List (List Seg) → List (List Seg)
  | [], _, gs => gs
  | s :: rest, visited, gs =>
    if s ∈ visited then goGroups segs t rest visited gs
    else
      let r := bfsLoop segs t [s] (s :: visited) [s]
      goGroups segs t rest r.2 (gs ++ [r.1])

/-- Source `find_groups(segments, threshold)`. -/
def find_groups (segs : List Seg) (t : ℚ) : List (List Seg) :=
  goGroups segs t segs [] []

/-- Adjacency between two input segments at threshold `t`: both belong to the
input list and `are_connected_or_close` holds. -/
def edgeRel (segs : List Seg) (t : ℚ) (a b : Seg) : Prop :=
  a ∈ segs ∧ b ∈ segs ∧ are_connected_or_close a b t = true

/-- Chain connectivity through the input list: the reflexive-transitive
closure of `edgeRel`. -/
def Conn (segs : List Seg) (t : ℚ) : Seg → Seg → Prop :=
  Relation.ReflTransGen (edgeRel segs t)

/-- The six world-file coefficients, in the parse order of
`transform_coordinates`: `A` (x pixel size), `D` (rotation y), `B`
(rotation x), `E` (y pixel size), `C` (x origin), `F` (y origin). -/
structure JGW where
  A : ℚ
  D : ℚ
  B : ℚ
  E : ℚ
  C : ℚ
  F : ℚ
deriving DecidableEq

/-- World-file parsing of `transform_coordinates` (lines 119-128 of
`coordinate_service.py`).  A line is modelled as `Option ℚ`: `some q` for a
line whose stripped text parses as the number `q`, `none` for a non-numeric
line.  The code indexes `jgw_lines[0]` … `jgw_lines[5]` and calls `float` on
each, so fewer than six lines raises `IndexError`, a non-numeric value among
the first six raises `ValueError` (both modelled as `none`), and any extra
lines are ignored. -/
def parse_jgw (lines : List (Option ℚ)) : Option JGW :=
  match lines with
  | la :: ld :: lb :: le :: lc :: lf :: _ =>
    match la, ld, lb, le, lc, lf with
    | some qa, some qd, some qb, some qe, some qc, some qf =>
      some ⟨qa, qd, qb, qe, qc, qf⟩
    | _, _, _, _, _, _ => none
  | _ => none

/-- Projected-coordinates detection heuristic (line 133 of
`coordinate_service.py`): `abs(C) > 1000 or abs(F) > 1000 or abs(A) > 1`. -/
def is_projected (j : JGW) : Bool :=
  decide (1000 < |j.C| ∨ 1000 < |j.F| ∨ 1 < |j.A|)

/-- UTM Zone 32N envelope test (line 139 of `coordinate_service.py`):
`500000 <= C <= 900000 and 5000000 <= F <= 6500000`. -/
def in_envelope (j : JGW) : Bool :=
  decide (500000 ≤ j.C ∧ j.C ≤ 900000 ∧ 5000000 ≤ j.F ∧ j.F ≤ 6500000)

/-- Whether `transform_coordinates` constructs the EPSG:25832 → EPSG:4326
reprojection transformer: the projected-detection heuristic and the UTM
envelope must both hold.  `Transformer.from_crs` for these two fixed,
well-known codes is modelled as succeeding (its failure is caught and leaves
the transformer absent). -/
def has_transformer (j : JGW) : Bool := is_projected j && in_envelope j

/-- The affine part of the point transform (lines 154-157 and 172-173 of
`coordinate_service.py`): `(A*px + B*py + C, D*px + E*py + F)`. -/
def affine_point (j : JGW) (p : Pt) : Pt :=
  (j.A * p.1 + j.B * p.2 + j.C, j.D * p.1 + j.E * p.2 + j.F)

/-- Full per-point transform: affine, then the pyproj reprojection (the
abstract parameter `reproj`) exactly when the transformer was constructed. -/
def transform_point (j : JGW) (reproj : Pt → Pt) (p : Pt) : Pt :=
  if has_transformer j then reproj (affine_point j p) else affine_point j p

/-- The dynamic value stored under the `line_value` key of a polygon-area
entry.  `falsy` stands for any value the `if line_values and line_values is
not False` guard skips other than an empty list (`None`, absent key, or
`False`); `segListV` is a list of two-point segments (the pre-transform
shape); `ptListV` is a flat list of points (the post-transform shape). -/
inductive LineValue where
  | falsy : LineValue
  | segListV : List Seg → LineValue
  | ptListV : List Pt → LineValue
deriving DecidableEq

/-- One entry of `polygon_areas`: its `line_value` key and (abstractly) all
its other keys, which the transform never touches. -/
structure PolyArea where
  line_value : LineValue
  props : ℕ
deriving DecidableEq

/-- The inner loop over `line_values` (lines 151-164 of
`coordinate_service.py`): each segment's two endpoints are transformed
independently and appended in order, flattening the polyline. -/
def transform_line_values (j : JGW) (reproj : Pt → Pt) : List Seg → List Pt
  | [] => []
  | sg :: rest =>
    transform_point j reproj sg.1 :: transform_point j reproj sg.2 ::
      transform_line_values j reproj rest

/-- Processing of one `polygon_areas` entry (lines 147-166).  A falsy
`line_value` (including an empty list) is skipped; a non-empty segment list
is replaced by the flattened transformed coordinates; a non-empty flat point
list would make the unpacking `a, b = value` produce two floats and the
subscript `a[0]` raise `TypeError`, modelled as `none`. -/
def transform_entry (j : JGW) (reproj : Pt → Pt) (p : PolyArea) :
    Option PolyArea :=
  match p.line_value with
  | LineValue.falsy => some p
  | LineValue.segListV [] => some p
  | LineValue.segListV (sg :: rest) =>
    some { p with line_value :=
      LineValue.ptListV (transform_line_values j reproj (sg :: rest)) }
  | LineValue.ptListV [] => some p
  | LineValue.ptListV (_ :: _) => none

/-- The `for poly in polygon_areas` loop (lines 147-166): every entry is
updated in place; the list object itself keeps its length and order. -/
def transform_polys (j : JGW) (reproj : Pt → Pt) :
    List PolyArea → Option (List PolyArea)
  | [] => some []
  | p :: rest =>
    match transform_entry j reproj p, transform_polys j reproj rest with
    | some q, some qs => some (q :: qs)
    | _, _ => none

/-- Source `CoordinateService.transform_coordinates`: parse the world file,
decide on the reprojection transformer, transform the polygon line values in
place, then map every pixel centre point, returning
`(geographic_coords, polygon_areas)`.  `none` models an uncaught exception
(malformed world file, or ill-shaped line values). -/
def transform_coordinates (reproj : Pt → Pt) (lines : List (Option ℚ))
    (pixel_coordinates : List Pt) (polygon_areas : List PolyArea) :
    Option (List Pt × List PolyArea) :=
  match parse_jgw lines with
  | none => none
  | some j =>
    match transform_polys j reproj polygon_areas with
    | none => none
    | some ps => some (pixel_coordinates.map (transform_point j reproj), ps)

/-- Order-preserving first-occurrence deduplication, the model of
`list(dict.fromkeys(points))` in `smooth_path`; `seen` is the set of values
already emitted. -/
def dedupFirstAux (seen : List Pt) : List Pt → List Pt
  | [] => []
  | p :: rest =>
    if p ∈ seen then dedupFirstAux seen rest
    else p :: dedupFirstAux (p :: seen) rest

/-- Order-preserving deduplication keeping first occurrences. -/
def dedupFirst (l : List Pt) : List Pt := dedupFirstAux [] l

/-- Truncation toward zero, the behaviour of a float-to-integer C cast for
in-range values. -/
def qtrunc (q : ℚ) : ℤ := if 0 ≤ q then ⌊q⌋ else ⌈q⌉

/-- Model of `np.int32(x)` applied to a real sample: truncate toward zero
and wrap into the two's-complement range `[-2^31, 2^31)` modulo `2^32`. -/
def toInt32 (q : ℚ) : ℤ := (qtrunc q + 2 ^ 31) % 2 ^ 32 - 2 ^ 31

/-- The coordinate pair `(np.int32(x), np.int32(y))` built by the
`zip(np.int32(x_fine), np.int32(y_fine))` of `smooth_path`. -/
def int32_point (p : Pt) : Pt := ((toInt32 p.1 : ℚ), (toInt32 p.2 : ℚ))

/-- Source `smooth_path(points, smoothing_factor=0)`.  The scipy pair
`splprep`/`splev` is the abstract parameter `spline`, taking the deduplicated
points, the smoothing factor, the spline degree `k`, and the number of
resampling positions, and returning the real-valued samples on success or
`none` when it raises; the `except` block then falls back to the (deduplicated)
point list. -/
def smooth_path (spline : List Pt → ℚ → ℕ → ℕ → Option (List Pt))
    (smoothing_factor : ℚ) (points : List Pt) : List Pt :=
  if points.length < 5 then points
  else if (dedupFirst points).length < 2 then dedupFirst points
  else
    match spline (dedupFirst points) smoothing_factor
        (min 3 ((dedupFirst points).length - 1))
        ((dedupFirst points).length * 10) with
    | some samples => samples.map int32_point
    | none => dedupFirst points

/-- The `for i in range(1, len(points) - 1)` loop of `filter_zigzag`, over
the interior points.  `dir` is the abstract `predict_direction` (the float
`degrees(atan2(...))` of the source), `lastKept` is `filtered_points[-1]`,
`plast` the final input point (the successor of the last interior point),
and a point is kept iff the absolute difference of the outgoing and incoming
directions is within the tolerance. -/
def fz_mid (dir : Pt → Pt → ℚ) (tol : ℚ) : Pt → Pt → List Pt → List Pt
  | _, _, [] => []
  | lastKept, plast, m :: rest =>
    if |dir m (rest.headD plast) - dir lastKept m| ≤ tol then
      m :: fz_mid dir tol m plast rest
    else
      fz_mid dir tol lastKept plast rest

/-- Source `filter_zigzag(points, tolerance=50)`: fewer than 3 points are
returned unchanged; otherwise the first point is kept, the interior is
filtered by the turning-angle test, and the last point is appended. -/
def filter_zigzag (dir : Pt → Pt → ℚ) (tol : ℚ) (points : List Pt) :
    List Pt :=
  if points.length < 3 then points
  else
    match points with
    | [] => points
    | p0 :: rest =>
      p0 :: (fz_mid dir tol p0 (rest.getLastD p0) rest.dropLast
        ++ [rest.getLastD p0])

/-- Example segment `((0,0),(10,0))` from the spec scenario. -/
def segA : Seg := ((0, 0), (10, 0))

/-- Example segment `((10,0),(20,0))` from the spec scenario; touches `segA`
at `(10,0)`. -/
def segB : Seg := ((10, 0), (20, 0))

/-- The two-segment example input of the spec scenarios. -/
def segsEx : List Seg := [segA, segB]

/-- The spec scenario world file `[0.0002, 0, 0, -0.0002, 13.4, 52.5]`. -/
def linesEx : List (Option ℚ) :=
  [some (1 / 5000), some 0, some 0, some (-(1 / 5000)), some (67 / 5),
    some (105 / 2)]

/-- The parsed coefficients of `linesEx`. -/
def jEx : JGW := ⟨1 / 5000, 0, 0, -(1 / 5000), 67 / 5, 105 / 2⟩

/-- A world file inside the UTM envelope: `C = 650000`, `F = 5800000`. -/
def jUTM : JGW := ⟨1 / 5, 0, 0, -(1 / 5), 650000, 5800000⟩

/-- A world file with degree-range origin: `C = 5.2`, `F = 50.9`. -/
def jDeg : JGW := ⟨1 / 5000, 0, 0, -(1 / 5000), 26 / 5, 509 / 10⟩

/-- A seven-line all-numeric world file: wrong line count, yet parsed. -/
def lines7 : List (Option ℚ) :=
  [some 1, some 0, some 0, some (-1), some 0, some 0, some 99]

/-- Five raw points of which only four are distinct. -/
def ptsC4 : List Pt := [(0, 0), (0, 0), (1, 0), (2, 1), (3, 0)]

/-- A spline oracle that succeeds with one sample; `splprep` with four
distinct points and `k = 3` satisfies `m > k` and succeeds generically. -/
def splineC4 : List Pt → ℚ → ℕ → ℕ → Option (List Pt) :=
  fun _ _ _ _ => some [(11 / 2, 5)]

/-- Five distinct points. -/
def ptsC10 : List Pt := [(0, 0), (1, 0), (2, 1), (3, 1), (4, 0)]

/-- A spline oracle returning one non-integer sample. -/
def splineC10 : List Pt → ℚ → ℕ → ℕ → Option (List Pt) :=
  fun _ _ _ _ => some [(7 / 2, -(9 / 4))]

/-- A direction oracle for zigzag-filter witnesses. -/
def dirEx : Pt → Pt → ℚ := fun _ _ => 0

/-- A three-point list for the zigzag-filter witness. -/
def ptsC5 : List Pt := [(0, 0), (1, 1), (2, 0)]

/-- A polygon-area entry with a one-segment line value. -/
def polyEntryA : PolyArea := ⟨LineValue.segListV [((0, 0), (100, 100))], 7⟩

/-- A polygon-area entry with a falsy line value. -/
def polyEntryB : PolyArea := ⟨LineValue.falsy, 3⟩

/-- The two-entry polygon-area example list. -/
def polysEx : List PolyArea := [polyEntryA, polyEntryB]

theorem expand_mem_visited (t : ℚ) (cur : Seg) :
    ∀ (l visited group queue : List Seg) (x : Seg),
      x ∈ (expand t cur l visited group queue).1 ↔
        x ∈ visited ∨ (x ∈ l ∧ are_connected_or_close cur x t = true) := by
  intro l
  induction l with
  | nil => intro visited group queue x; simp [expand]
  | cons s rest ih =>
    intro visited group queue x
    by_cases hc : s ∉ visited ∧ are_connected_or_close cur s t = true
    · obtain ⟨h1, h2⟩ := hc
      rw [expand, if_pos ⟨h1, h2⟩, ih]
      by_cases hx : x = s
      · subst hx
        simp only [List.mem_cons, eq_self_iff_true, true_or, true_and, h2]
        tauto
      · simp only [List.mem_cons, hx, false_or]
    · rw [expand, if_neg hc, ih]
      by_cases hx : x = s
      · subst hx
        simp only [List.mem_cons, eq_self_iff_true, true_or, true_and]
        tauto
      · simp only [List.mem_cons, hx, false_or]

theorem expand_mem_group (t : ℚ) (cur : Seg) :
    ∀ (l visited group queue : List Seg) (x : Seg),
      x ∈ (expand t cur l visited group queue).2.1 ↔
        x ∈ group ∨ (x ∈ l ∧ x ∉ visited ∧ are_connected_or_close cur x t = true) := by
  intro l
  induction l with
  | nil => intro visited group queue x; simp [expand]
  | cons s rest ih =>
    intro visited group queue x
    by_cases hc : s ∉ visited ∧ are_connected_or_close cur s t = true
    · obtain ⟨h1, h2⟩ := hc
      rw [expand, if_pos ⟨h1, h2⟩, ih]
      by_cases hx : x = s
      · subst hx
        simp only [List.mem_cons, List.mem_append, List.mem_singleton,
          eq_self_iff_true, true_or, true_and, or_true, h2]
        tauto
      · simp only [List.mem_cons, List.mem_append, List.mem_singleton, hx,
          false_or, or_false]
        tauto
    · rw [expand, if_neg hc, ih]
      by_cases hx : x = s
      · subst hx
        simp only [List.mem_cons, eq_self_iff_true, true_or, true_and]
        tauto
      · simp only [List.mem_cons, hx, false_or]

theorem expand_mem_queue (t : ℚ) (cur : Seg) :
    ∀ (l visited group queue : List Seg) (x : Seg),
      x ∈ (expand t cur l visited group queue).2.2 ↔
        x ∈ queue ∨ (x ∈ l ∧ x ∉ visited ∧ are_connected_or_close cur x t = true) := by
  intro l
  induction l with
  | nil => intro visited group queue x; simp [expand]
  | cons s rest ih =>
    intro visited group queue x
    by_cases hc : s ∉ visited ∧ are_connected_or_close cur s t = true
    · obtain ⟨h1, h2⟩ := hc
      rw [expand, if_pos ⟨h1, h2⟩, ih]
      by_cases hx : x = s
      · subst hx
        simp only [List.mem_cons, List.mem_append, List.mem_singleton,
          eq_self_iff_true, true_or, true_and, or_true, h2]
        tauto
      · simp only [List.mem_cons, List.mem_append, List.mem_singleton, hx,
          false_or, or_false]
        tauto
    · rw [expand, if_neg hc, ih]
      by_cases hx : x = s
      · subst hx
        simp only [List.mem_cons, eq_self_iff_true, true_or, true_and]
        tauto
      · simp only [List.mem_cons, hx, false_or]

/-- Full invariant of the BFS `while` loop of `find_groups`.  Starting from a
state whose queue is contained in the group, whose group is visited, inside
the scan list, connected to the seed, whose visited set is exactly the
previously visited `V0` together with the group, whose group is fresh
(disjoint from `V0` except for the seed), and whose already-processed group
members have all their neighbours visited, the loop returns a pair
`(G, V)` with: the group only grows, `V = V0 ∪ G`, `G` stays inside the scan
list, every member of `G` is chain-connected to the seed, `G` is fresh, and
every neighbour of a member of `G` is in `V`. -/
theorem bfsLoop_spec (segs : List Seg) (t : ℚ) (seed : Seg) (V0 : List Seg) :
    ∀ (queue visited group : List Seg),
      (∀ x ∈ queue, x ∈ group) →
      (∀ x ∈ group, x ∈ visited) →
      (∀ x ∈ group, x ∈ segs) →
      (∀ x ∈ group, Conn segs t seed x) →
      (∀ x, x ∈ visited ↔ x ∈ V0 ∨ x ∈ group) →
      (∀ x ∈ group, x = seed ∨ x ∉ V0) →
      (∀ a ∈ group, a ∉ queue → ∀ b ∈ segs,
          are_connected_or_close a b t = true → b ∈ visited) →
      (∀ x ∈ group, x ∈ (bfsLoop segs t queue visited group).1) ∧
      (∀ x, x ∈ (bfsLoop segs t queue visited group).2 ↔
          x ∈ V0 ∨ x ∈ (bfsLoop segs t queue visited group).1) ∧
      (∀ x ∈ (bfsLoop segs t queue visited group).1, x ∈ segs) ∧
      (∀ x ∈ (bfsLoop segs t queue visited group).1, Conn segs t seed x) ∧
      (∀ x ∈ (bfsLoop segs t queue visited group).1, x = seed ∨ x ∉ V0) ∧
      (∀ a ∈ (bfsLoop segs t queue visited group).1, ∀ b ∈ segs,
          are_connected_or_close a b t = true →
            b ∈ (bfsLoop segs t queue visited group).2) := by
  intro queue visited group
  induction queue, visited, group using bfsLoop.induct segs t with
  | case1 visited group =>
    intro _ _ hseg hconn hv hfresh hcl
    rw [bfsLoop]
    exact ⟨fun x hx => hx, hv, hseg, hconn, hfresh,
      fun a ha b hb hab => hcl a ha (by simp) b hb hab⟩
  | case2 cur rest visited group ih =>
    intro hq hg hseg hconn hv hfresh hcl
    rw [bfsLoop]
    have hcur_g : cur ∈ group := hq cur (by simp)
    have hcur_seg : cur ∈ segs := hseg cur hcur_g
    have hcur_conn : Conn segs t seed cur := hconn cur hcur_g
    have mv := expand_mem_visited t cur segs visited group rest
    have mg := expand_mem_group t cur segs visited group rest
    have mq := expand_mem_queue t cur segs visited group rest
    have n1 : ∀ x ∈ (expand t cur segs visited group rest).2.2,
        x ∈ (expand t cur segs visited group rest).2.1 := by
      intro x hx
      rcases (mq x).mp hx with h | h
      · exact (mg x).mpr (Or.inl (hq x (by simp [h])))
      · exact (mg x).mpr (Or.inr h)
    have n2 : ∀ x ∈ (expand t cur segs visited group rest).2.1,
        x ∈ (expand t cur segs visited group rest).1 := by
      intro x hx
      rcases (mg x).mp hx with h | h
      · exact (mv x).mpr (Or.inl (hg x h))
      · exact (mv x).mpr (Or.inr ⟨h.1, h.2.2⟩)
    have n3 : ∀ x ∈ (expand t cur segs visited group rest).2.1, x ∈ segs := by
      intro x hx
      rcases (mg x).mp hx with h | h
      · exact hseg x h
      · exact h.1
    have n4 : ∀ x ∈ (expand t cur segs visited group rest).2.1,
        Conn segs t seed x := by
      intro x hx
      rcases (mg x).mp hx with h | h
      · exact hconn x h
      · exact Relation.ReflTransGen.tail hcur_conn ⟨hcur_seg, h.1, h.2.2⟩
    have n5 : ∀ x, x ∈ (expand t cur segs visited group rest).1 ↔
        x ∈ V0 ∨ x ∈ (expand t cur segs visited group rest).2.1 := by
      intro x
      constructor
      · intro hx
        rcases (mv x).mp hx with h | h
        · rcases (hv x).mp h with h2 | h2
          · exact Or.inl h2
          · exact Or.inr ((mg x).mpr (Or.inl h2))
        · by_cases hxv : x ∈ visited
          · rcases (hv x).mp hxv with h2 | h2
            · exact Or.inl h2
            · exact Or.inr ((mg x).mpr (Or.inl h2))
          · exact Or.inr ((mg x).mpr (Or.inr ⟨h.1, hxv, h.2⟩))
      · intro hx
        rcases hx with h | h
        · exact (mv x).mpr (Or.inl ((hv x).mpr (Or.inl h)))
        · rcases (mg x).mp h with h2 | h2
          · exact (mv x).mpr (Or.inl (hg x h2))
          · exact (mv x).mpr (Or.inr ⟨h2.1, h2.2.2⟩)
    have n6 : ∀ x ∈ (expand t cur segs visited group rest).2.1,
        x = seed ∨ x ∉ V0 := by
      intro x hx
      rcases (mg x).mp hx with h | h
      · exact hfresh x h
      · exact Or.inr fun hv0 => h.2.1 ((hv x).mpr (Or.inl hv0))
    have n7 : ∀ a ∈ (expand t cur segs visited group rest).2.1,
        a ∉ (expand t cur segs visited group rest).2.2 → ∀ b ∈ segs,
          are_connected_or_close a b t = true →
            b ∈ (expand t cur segs visited group rest).1 := by
      intro a ha hanq b hb hab
      rcases (mg a).mp ha with h | h
      · by_cases hac : a = cur
        · subst hac
          exact (mv b).mpr (Or.inr ⟨hb, hab⟩)
        · have hanq_old : a ∉ (cur :: rest) := by
            intro hmem
            rcases List.mem_cons.mp hmem with h2 | h2
            · exact hac h2
            · exact hanq ((mq a).mpr (Or.inl h2))
          exact (mv b).mpr (Or.inl (hcl a h hanq_old b hb hab))
      · exact absurd ((mq a).mpr (Or.inr h)) hanq
    obtain ⟨i1, i2, i3, i4, i5, i6⟩ := ih n1 n2 n3 n4 n5 n6 n7
    exact ⟨fun x hx => i1 x ((mg x).mpr (Or.inl hx)), i2, i3, i4, i5, i6⟩

theorem dist2_comm (p q : Pt) : dist2 p q = dist2 q p := by
  unfold dist2; ring

theorem distLt_symm (p q : Pt) (t : ℚ) : distLt p q t = distLt q p t := by
  unfold distLt; rw [dist2_comm]

theorem acoc_symm (s1 s2 : Seg) (t : ℚ) :
    are_connected_or_close s1 s2 t = are_connected_or_close s2 s1 t := by
  unfold are_connected_or_close
  rw [distLt_symm s1.1 s2.1, distLt_symm s1.1 s2.2, distLt_symm s1.2 s2.1,
    distLt_symm s1.2 s2.2]
  cases distLt s2.1 s1.1 t <;> cases distLt s2.1 s1.2 t <;>
    cases distLt s2.2 s1.1 t <;> cases distLt s2.2 s1.2 t <;> rfl

theorem edgeRel_symm {segs : List Seg} {t : ℚ} {a b : Seg}
    (h : edgeRel segs t a b) : edgeRel segs t b a :=
  ⟨h.2.1, h.1, by rw [acoc_symm]; exact h.2.2⟩

theorem conn_symm {segs : List Seg} {t : ℚ} {a b : Seg}
    (h : Conn segs t a b) : Conn segs t b a := by
  induction h with
  | refl => exact Relation.ReflTransGen.refl
  | tail _ hbc ihs => exact Relation.ReflTransGen.head (edgeRel_symm hbc) ihs

/-- Invariant of the outer loop of `find_groups`: processing the remaining
segments preserves (and finally yields) the partition facts: old groups are
kept, every processed segment lies in some group, groups contain only input
segments, members of one group are chain-connected, groups are pairwise
disjoint, and a neighbour of a grouped segment lies in the same group. -/
theorem goGroups_spec (segs : List Seg) (t : ℚ) :
    ∀ (rem visited : List Seg) (gs : List (List Seg)),
      (∀ x ∈ rem, x ∈ segs) →
      (∀ x, x ∈ visited ↔ ∃ g ∈ gs, x ∈ g) →
      (∀ g ∈ gs, ∀ x ∈ g, x ∈ segs) →
      (∀ a ∈ visited, ∀ b ∈ segs,
          are_connected_or_close a b t = true → b ∈ visited) →
      (∀ a ∈ visited, ∀ b ∈ segs, are_connected_or_close a b t = true →
          ∃ g ∈ gs, a ∈ g ∧ b ∈ g) →
      (∀ g ∈ gs, ∀ a ∈ g, ∀ b ∈ g, Conn segs t a b) →
      List.Pairwise (fun g1 g2 => ∀ x, x ∈ g1 → x ∉ g2) gs →
      (∀ g ∈ gs, g ∈ goGroups segs t rem visited gs) ∧
      (∀ s ∈ rem, ∃ g ∈ goGroups segs t rem visited gs, s ∈ g) ∧
      (∀ g ∈ goGroups segs t rem visited gs, ∀ x ∈ g, x ∈ segs) ∧
      (∀ g ∈ goGroups segs t rem visited gs, ∀ a ∈ g, ∀ b ∈ g, Conn segs t a b) ∧
      List.Pairwise (fun g1 g2 => ∀ x, x ∈ g1 → x ∉ g2)
        (goGroups segs t rem visited gs) ∧
      (∀ a b, (∃ g ∈ goGroups segs t rem visited gs, a ∈ g) → b ∈ segs →
          are_connected_or_close a b t = true →
          ∃ g ∈ goGroups segs t rem visited gs, a ∈ g ∧ b ∈ g) := by
  intro rem
  induction rem with
  | nil =>
    intro visited gs hrem hv1 hseg hcl2 hcl3 hconn hpw
    rw [goGroups]
    refine ⟨fun g hg => hg, by simp, hseg, hconn, hpw, ?_⟩
    rintro a b ⟨g, hg, hag⟩ hb hab
    exact hcl3 a ((hv1 a).mpr ⟨g, hg, hag⟩) b hb hab
  | cons s rest ih =>
    intro visited gs hrem hv1 hseg hcl2 hcl3 hconn hpw
    have hs_seg : s ∈ segs := hrem s (by simp)
    have hrest : ∀ x ∈ rest, x ∈ segs := fun x hx => hrem x (by simp [hx])
    by_cases hsv : s ∈ visited
    · rw [goGroups, if_pos hsv]
      obtain ⟨o1, o2, o3, o4, o5, o6⟩ :=
        ih visited gs hrest hv1 hseg hcl2 hcl3 hconn hpw
      refine ⟨o1, ?_, o3, o4, o5, o6⟩
      intro x hx
      rcases List.mem_cons.mp hx with rfl | hx2
      · obtain ⟨g, hg, hxg⟩ := (hv1 x).mp hsv
        exact ⟨g, o1 g hg, hxg⟩
      · exact o2 x hx2
    · rw [goGroups, if_neg hsv]
      obtain ⟨b1, b2, b3, b4, b5, b6⟩ :=
        bfsLoop_spec segs t s visited [s] (s :: visited) [s]
          (fun x hx => hx)
          (by intro x hx; rcases List.mem_singleton.mp hx with rfl; simp)
          (by intro x hx; rcases List.mem_singleton.mp hx with rfl; exact hs_seg)
          (by intro x hx; rcases List.mem_singleton.mp hx with rfl
              exact Relation.ReflTransGen.refl)
          (by intro x; simp [List.mem_cons, or_comm])
          (by intro x hx; rcases List.mem_singleton.mp hx with rfl; exact Or.inl rfl)
          (by intro a ha hnq; exact absurd ha hnq)
      set G := (bfsLoop segs t [s] (s :: visited) [s]).1 with hGdef
      set V := (bfsLoop segs t [s] (s :: visited) [s]).2 with hVdef
      have hsG : s ∈ G := b1 s (by simp)
      have hGfresh : ∀ x ∈ G, x ∉ visited := by
        intro x hx
        rcases b5 x hx with rfl | h
        · exact hsv
        · exact h
      have hv1n : ∀ x, x ∈ V ↔ ∃ g ∈ gs ++ [G], x ∈ g := by
        intro x
        rw [b2 x]
        simp only [List.mem_append, List.mem_singleton]
        constructor
        · rintro (h | h)
          · obtain ⟨g, hg, hxg⟩ := (hv1 x).mp h
            exact ⟨g, Or.inl hg, hxg⟩
          · exact ⟨G, Or.inr rfl, h⟩
        · rintro ⟨g, hg | rfl, hxg⟩
          · exact Or.inl ((hv1 x).mpr ⟨g, hg, hxg⟩)
          · exact Or.inr hxg
      have hsegn : ∀ g ∈ gs ++ [G], ∀ x ∈ g, x ∈ segs := by
        intro g hg
        rcases List.mem_append.mp hg with h | h
        · exact hseg g h
        · rcases List.mem_singleton.mp h with rfl
          exact b3
      have hcl2n : ∀ a ∈ V, ∀ b ∈ segs,
          are_connected_or_close a b t = true → b ∈ V := by
        intro a ha b hb hab
        rcases (b2 a).mp ha with h | h
        · exact (b2 b).mpr (Or.inl (hcl2 a h b hb hab))
        · exact b6 a h b hb hab
      have hcl3n : ∀ a ∈ V, ∀ b ∈ segs, are_connected_or_close a b t = true →
          ∃ g ∈ gs ++ [G], a ∈ g ∧ b ∈ g := by
        intro a ha b hb hab
        rcases (b2 a).mp ha with h | h
        · obtain ⟨g, hg, hg2⟩ := hcl3 a h b hb hab
          exact ⟨g, List.mem_append.mpr (Or.inl hg), hg2⟩
        · have hbV : b ∈ V := b6 a h b hb hab
          rcases (b2 b).mp hbV with h2 | h2
          · exfalso
            have hba : are_connected_or_close b a t = true := by
              rw [acoc_symm]; exact hab
            exact hGfresh a h (hcl2 b h2 a (b3 a h) hba)
          · exact ⟨G, List.mem_append.mpr (Or.inr (by simp)), h, h2⟩
      have hconnn : ∀ g ∈ gs ++ [G], ∀ a ∈ g, ∀ b ∈ g, Conn segs t a b := by
        intro g hg
        rcases List.mem_append.mp hg with h | h
        · exact hconn g h
        · rcases List.mem_singleton.mp h with rfl
          intro a ha b hb
          exact Relation.ReflTransGen.trans (conn_symm (b4 a ha)) (b4 b hb)
      have hpwn : List.Pairwise (fun g1 g2 => ∀ x, x ∈ g1 → x ∉ g2)
          (gs ++ [G]) := by
        rw [List.pairwise_append]
        refine ⟨hpw, List.pairwise_singleton _ _, ?_⟩
        intro g hg g2 hg2
        rcases List.mem_singleton.mp hg2 with rfl
        intro x hxg hxG
        exact hGfresh x hxG ((hv1 x).mpr ⟨g, hg, hxg⟩)
      obtain ⟨o1, o2, o3, o4, o5, o6⟩ :=
        ih V (gs ++ [G]) hrest hv1n hsegn hcl2n hcl3n hconnn hpwn
      refine ⟨?_, ?_, o3, o4, o5, o6⟩
      · intro g hg
        exact o1 g (List.mem_append.mpr (Or.inl hg))
      · intro x hx
        rcases List.mem_cons.mp hx with rfl | hx2
        · exact ⟨G, o1 G (List.mem_append.mpr (Or.inr (by simp))), hsG⟩
        · exact o2 x hx2

/-- Summary facts about `find_groups`: totality, groups drawn from the
input, soundness (one group is chain-connected), pairwise disjointness, and
closure of groups under adjacency. -/
theorem find_groups_spec (segs : List Seg) (t : ℚ) :
    (∀ s ∈ segs, ∃ g ∈ find_groups segs t, s ∈ g) ∧
    (∀ g ∈ find_groups segs t, ∀ x ∈ g, x ∈ segs) ∧
    (∀ g ∈ find_groups segs t, ∀ a ∈ g, ∀ b ∈ g, Conn segs t a b) ∧
    List.Pairwise (fun g1 g2 => ∀ x, x ∈ g1 → x ∉ g2) (find_groups segs t) ∧
    (∀ a b, (∃ g ∈ find_groups segs t, a ∈ g) → b ∈ segs →
        are_connected_or_close a b t = true →
        ∃ g ∈ find_groups segs t, a ∈ g ∧ b ∈ g) := by
  obtain ⟨_, o2, o3, o4, o5, o6⟩ :=
    goGroups_spec segs t segs [] []
      (fun x hx => hx)
      (by simp)
      (by simp)
      (by simp)
      (by simp)
      (by simp)
      (List.Pairwise.nil)
  exact ⟨o2, o3, o4, o5, o6⟩

/-- In a pairwise-disjoint list of groups, the group containing a given
element is unique. -/
theorem pairwise_disjoint_unique {gs : List (List Seg)}
    (hpw : List.Pairwise (fun g1 g2 => ∀ x, x ∈ g1 → x ∉ g2) gs) :
    ∀ g1 ∈ gs, ∀ g2 ∈ gs, ∀ x, x ∈ g1 → x ∈ g2 → g1 = g2 := by
  induction gs with
  | nil => intro g1 hg1; exact absurd hg1 (List.not_mem_nil g1)
  | cons g gs ih =>
    intro g1 hg1 g2 hg2 x hx1 hx2
    obtain ⟨hd, htl⟩ := List.pairwise_cons.mp hpw
    rcases List.mem_cons.mp hg1 with rfl | h1
    · rcases List.mem_cons.mp hg2 with rfl | h2
      · rfl
      · exact absurd hx2 (hd g2 h2 x hx1)
    · rcases List.mem_cons.mp hg2 with rfl | h2
      · exact absurd hx1 (hd g1 h1 x hx2)
      · exact ih htl g1 h1 g2 h2 x hx1 hx2

/-- Completeness of clustering: a whole connectivity chain stays inside the
group of its starting segment. -/
theorem conn_in_same_group (segs : List Seg) (t : ℚ) {a b : Seg}
    (hconn : Conn segs t a b) :
    ∀ g ∈ find_groups segs t, a ∈ g → b ∈ g := by
  obtain ⟨o1, _, _, o5, o6⟩ := find_groups_spec segs t
  induction hconn using Relation.ReflTransGen.head_induction_on with
  | refl => intro g _ ha; exact ha
  | head hstep _ ihs =>
    rename_i x y _
    intro g hg hx
    obtain ⟨g2, hg2, hxg2, hyg2⟩ :=
      o6 x y ⟨g, hg, hx⟩ hstep.2.1 hstep.2.2
    have : g = g2 := pairwise_disjoint_unique o5 g hg g2 hg2 x hx hxg2
    exact ihs g hg (this ▸ hyg2)

theorem distLt_mono {p q : Pt} {t t' : ℚ} (htt : t ≤ t')
    (h : distLt p q t = true) : distLt p q t' = true := by
  unfold distLt at h ⊢
  rw [decide_eq_true_iff] at h ⊢
  have ht : 0 < t := h.1
  refine ⟨lt_of_lt_of_le ht htt, lt_of_lt_of_le h.2 ?_⟩
  have h0 : (0 : ℚ) ≤ t := le_of_lt ht
  calc t ^ 2 = t * t := sq t
    _ ≤ t' * t' := mul_le_mul htt htt h0 (le_trans h0 htt)
    _ = t' ^ 2 := (sq t').symm

theorem acoc_mono {s1 s2 : Seg} {t t' : ℚ} (htt : t ≤ t')
    (h : are_connected_or_close s1 s2 t = true) :
    are_connected_or_close s1 s2 t' = true := by
  unfold are_connected_or_close at h ⊢
  rcases Bool.or_eq_true_iff.mp h with h1 | h4
  · rcases Bool.or_eq_true_iff.mp h1 with h2 | h3
    · rcases Bool.or_eq_true_iff.mp h2 with h5 | h6
      · simp [distLt_mono htt h5]
      · simp [distLt_mono htt h6]
    · simp [distLt_mono htt h3]
  · simp [distLt_mono htt h4]

theorem conn_mono {segs : List Seg} {t t' : ℚ} (htt : t ≤ t') {a b : Seg}
    (h : Conn segs t a b) : Conn segs t' a b := by
  refine Relation.ReflTransGen.mono ?_ h
  rintro x y ⟨hx, hy, hxy⟩
  exact ⟨hx, hy, acoc_mono htt hxy⟩

/-- The boolean distance test is exactly the strict `Real.sqrt` comparison
performed by `distance(p1, p2) < threshold` in the source. -/
theorem distLt_iff_sqrt (p q : Pt) (t : ℚ) :
    distLt p q t = true ↔ Real.sqrt ((dist2 p q : ℚ) : ℝ) < (t : ℝ) := by
  unfold distLt
  rw [decide_eq_true_iff]
  constructor
  · rintro ⟨ht, hd⟩
    have ht2 : (0 : ℝ) < (t : ℝ) := by exact_mod_cast ht
    rw [Real.sqrt_lt' ht2]
    have : ((dist2 p q : ℚ) : ℝ) < ((t ^ 2 : ℚ) : ℝ) := by exact_mod_cast hd
    calc ((dist2 p q : ℚ) : ℝ) < ((t ^ 2 : ℚ) : ℝ) := this
      _ = (t : ℝ) ^ 2 := by push_cast; ring
  · intro h
    have ht2 : (0 : ℝ) < (t : ℝ) :=
      lt_of_le_of_lt (Real.sqrt_nonneg _) h
    have ht : 0 < t := by exact_mod_cast ht2
    refine ⟨ht, ?_⟩
    have hd := (Real.sqrt_lt' ht2).mp h
    have : ((dist2 p q : ℚ) : ℝ) < ((t ^ 2 : ℚ) : ℝ) := by
      calc ((dist2 p q : ℚ) : ℝ) < (t : ℝ) ^ 2 := hd
        _ = ((t ^ 2 : ℚ) : ℝ) := by push_cast; ring
    exact_mod_cast this

theorem dedupFirstAux_mem :
    ∀ (l seen : List Pt) (x : Pt),
      x ∈ dedupFirstAux seen l ↔ x ∈ l ∧ x ∉ seen := by
  intro l
  induction l with
  | nil => intro seen x; simp [dedupFirstAux]
  | cons p rest ih =>
    intro seen x
    by_cases hp : p ∈ seen
    · rw [dedupFirstAux, if_pos hp, ih]
      by_cases hx : x = p
      · subst hx; simp [hp]
      · simp [List.mem_cons, hx]
    · rw [dedupFirstAux, if_neg hp]
      by_cases hx : x = p
      · subst hx; simp [hp]
      · simp only [List.mem_cons, hx, false_or]
        rw [ih]
        simp only [List.mem_cons, hx, false_or]

theorem dedupFirst_mem (l : List Pt) (x : Pt) : x ∈ dedupFirst l ↔ x ∈ l := by
  rw [dedupFirst, dedupFirstAux_mem]
  simp

theorem dedupFirstAux_nodup : ∀ (l seen : List Pt), (dedupFirstAux seen l).Nodup := by
  intro l
  induction l with
  | nil => intro seen; simp [dedupFirstAux]
  | cons p rest ih =>
    intro seen
    by_cases hp : p ∈ seen
    · rw [dedupFirstAux, if_pos hp]; exact ih seen
    · rw [dedupFirstAux, if_neg hp]
      refine List.nodup_cons.mpr ⟨?_, ih (p :: seen)⟩
      intro hmem
      exact ((dedupFirstAux_mem rest (p :: seen) p).mp hmem).2 (by simp)

theorem dedupFirstAux_sublist :
    ∀ (l seen : List Pt), (dedupFirstAux seen l).Sublist l := by
  intro l
  induction l with
  | nil => intro seen; simp [dedupFirstAux]
  | cons p rest ih =>
    intro seen
    by_cases hp : p ∈ seen
    · rw [dedupFirstAux, if_pos hp]
      exact (ih seen).trans (List.sublist_cons_self p rest)
    · rw [dedupFirstAux, if_neg hp]
      exact List.Sublist.cons₂ p (ih (p :: seen))

/-- The wrapped truncation lands in the 32-bit two's-complement range. -/
theorem toInt32_range (q : ℚ) : -(2 ^ 31) ≤ toInt32 q ∧ toInt32 q < 2 ^ 31 := by
  unfold toInt32
  have h1 : 0 ≤ (qtrunc q + 2 ^ 31) % 2 ^ 32 :=
    Int.emod_nonneg _ (by norm_num)
  have h2 : (qtrunc q + 2 ^ 31) % 2 ^ 32 < 2 ^ 32 :=
    Int.emod_lt_of_pos _ (by norm_num)
  omega

/-- Every interior point the zigzag loop keeps has passed the turning-angle
tolerance test: the direction out of it (towards its input successor) differs
from the direction into it (from the previously kept point) by at most the
tolerance. -/
theorem fz_mid_mem (dir : Pt → Pt → ℚ) (tol : ℚ) :
    ∀ (l : List Pt) (lastKept plast m : Pt),
      m ∈ fz_mid dir tol lastKept plast l →
      ∃ prev ∈ lastKept :: l, ∃ nxt ∈ l ++ [plast],
        |dir m nxt - dir prev m| ≤ tol := by
  intro l
  induction l with
  | nil => intro lk pl m hm; simp [fz_mid] at hm
  | cons p rest ih =>
    intro lk pl m hm
    rw [fz_mid] at hm
    by_cases hcond : |dir p (rest.headD pl) - dir lk p| ≤ tol
    · rw [if_pos hcond] at hm
      rcases List.mem_cons.mp hm with rfl | hm2
      · refine ⟨lk, by simp, rest.headD pl, ?_, hcond⟩
        cases rest with
        | nil => simp
        | cons r rs => simp [List.headD]
      · obtain ⟨prev, hprev, nxt, hnxt, hle⟩ := ih p pl m hm2
        refine ⟨prev, ?_, nxt, ?_, hle⟩
        · rcases List.mem_cons.mp hprev with rfl | h
          · simp
          · simp [h]
        · simp only [List.mem_append, List.mem_cons, List.mem_singleton] at hnxt ⊢
          tauto
    · rw [if_neg hcond] at hm
      obtain ⟨prev, hprev, nxt, hnxt, hle⟩ := ih lk pl m hm
      refine ⟨prev, ?_, nxt, ?_, hle⟩
      · rcases List.mem_cons.mp hprev with rfl | h
        · simp
        · simp [h]
      · simp only [List.mem_append, List.mem_cons, List.mem_singleton] at hnxt ⊢
        tauto

/-- Unfolding of `filter_zigzag` on a long-enough input decomposed as first
point, interior, and last point. -/
theorem filter_zigzag_decomp (dir : Pt → Pt → ℚ) (tol : ℚ) (p0 : Pt)
    (mid : List Pt) (lastP : Pt) (h3 : 3 ≤ (p0 :: (mid ++ [lastP])).length) :
    filter_zigzag dir tol (p0 :: (mid ++ [lastP]))
      = p0 :: (fz_mid dir tol p0 lastP mid ++ [lastP]) := by
  rw [filter_zigzag, if_neg (by simp at h3 ⊢; omega)]
  rw [List.getLastD_concat, List.dropLast_concat]

theorem transform_line_values_length (j : JGW) (reproj : Pt → Pt) :
    ∀ l : List Seg, (transform_line_values j reproj l).length = 2 * l.length := by
  intro l
  induction l with
  | nil => simp [transform_line_values]
  | cons sg rest ih =>
    rw [transform_line_values]
    simp only [List.length_cons, ih]
    ring

/-- The transformed line value alternates the two transformed endpoints of
each input segment. -/
theorem transform_line_values_get (j : JGW) (reproj : Pt → Pt) :
    ∀ (l : List Seg) (i : ℕ) (sg : Seg), l.get? i = some sg →
      (transform_line_values j reproj l).get? (2 * i)
          = some (transform_point j reproj sg.1) ∧
      (transform_line_values j reproj l).get? (2 * i + 1)
          = some (transform_point j reproj sg.2) := by
  intro l
  induction l with
  | nil => intro i sg h; simp at h
  | cons s rest ih =>
    intro i sg h
    cases i with
    | zero =>
      simp only [List.get?] at h
      cases h
      simp [transform_line_values]
    | succ i2 =>
      simp only [List.get?] at h
      have := ih i2 sg h
      rw [transform_line_values]
      have h21 : 2 * (i2 + 1) = (2 * i2 + 1) + 1 := by ring
      rw [h21]
      simpa using this

theorem transform_polys_get (j : JGW) (reproj : Pt → Pt) :
    ∀ (polys out : List PolyArea), transform_polys j reproj polys = some out →
      out.length = polys.length ∧
      ∀ (i : ℕ) (p : PolyArea), polys.get? i = some p →
        ∃ q, out.get? i = some q ∧ transform_entry j reproj p = some q := by
  intro polys
  induction polys with
  | nil =>
    intro out h
    rw [transform_polys] at h
    cases h
    exact ⟨rfl, by intro i p hp; simp at hp⟩
  | cons p rest ih =>
    intro out h
    rw [transform_polys] at h
    cases he : transform_entry j reproj p with
    | none => rw [he] at h; cases h
    | some q =>
      rw [he] at h
      cases hr : transform_polys j reproj rest with
      | none => rw [hr] at h; cases h
      | some qs =>
        rw [hr] at h
        cases h
        obtain ⟨hlen, hget⟩ := ih qs hr
        refine ⟨by simp [hlen], ?_⟩
        intro i p2 hp
        cases i with
        | zero =>
          simp only [List.get?] at hp
          cases hp
          exact ⟨q, by simp, he⟩
        | succ i2 =>
          simp only [List.get?] at hp ⊢
          exact hget i2 p2 hp

/-- Concrete clustering run: the two touching spec-scenario segments form a
single group at threshold 5. -/
theorem find_groups_segsEx_5 : find_groups segsEx 5 = [[segA, segB]] := by
  simp [find_groups, goGroups, bfsLoop, expand, segsEx, segA, segB,
    are_connected_or_close, distLt, dist2]

/-- Concrete clustering run at the larger threshold 6. -/
theorem find_groups_segsEx_6 : find_groups segsEx 6 = [[segA, segB]] := by
  simp [find_groups, goGroups, bfsLoop, expand, segsEx, segA, segB,
    are_connected_or_close, distLt, dist2]

/-- C1: for every finite list of segments and every threshold, the groups
returned by `find_groups` partition the input: every input segment (values
compared by coordinates) appears in exactly one output group, groups contain
only input segments, and two segments are in the same group if and only if
they are connected by a chain of pairwise `are_connected_or_close` relations
(through input segments) at that threshold. -/
theorem claim_C1_partition (segs : List Seg) (t : ℚ) :
    (∀ s ∈ segs, ∃! g, g ∈ find_groups segs t ∧ s ∈ g) ∧
    (∀ g ∈ find_groups segs t, ∀ x ∈ g, x ∈ segs) ∧
    (∀ g ∈ find_groups segs t, ∀ s1 ∈ g, ∀ s2 ∈ g, Conn segs t s1 s2) ∧
    (∀ g ∈ find_groups segs t, ∀ s1 ∈ g, ∀ s2 : Seg,
        Conn segs t s1 s2 → s2 ∈ g) := by
  obtain ⟨o1, o2, o3, o5, _⟩ := find_groups_spec segs t
  refine ⟨?_, o2, o3, ?_⟩
  · intro s hs
    obtain ⟨g, hg, hsg⟩ := o1 s hs
    refine ⟨g, ⟨hg, hsg⟩, ?_⟩
    rintro g2 ⟨hg2, hsg2⟩
    exact pairwise_disjoint_unique o5 g2 hg2 g hg s hsg2 hsg
  · intro g hg s1 hs1 s2 hconn
    exact conn_in_same_group segs t hconn g hg hs1

/-- C6: `are_connected_or_close seg1 seg2 threshold` is true exactly when
some endpoint of `seg1` is within the threshold (strict Euclidean distance)
of some endpoint of `seg2`; touching segments (shared endpoint, distance 0)
count as connected, so the two example segments cluster into one group at
threshold 5. -/
theorem claim_C6_connected_iff :
    (∀ (s1 s2 : Seg) (t : ℚ), are_connected_or_close s1 s2 t = true ↔
      ∃ p ∈ [s1.1, s1.2], ∃ q ∈ [s2.1, s2.2],
        Real.sqrt (((p.1 - q.1) ^ 2 + (p.2 - q.2) ^ 2 : ℚ) : ℝ) < (t : ℝ)) ∧
    dist2 segA.2 segB.1 = 0 ∧
    are_connected_or_close segA segB 5 = true ∧
    find_groups segsEx 5 = [[segA, segB]] := by
  refine ⟨?_, by norm_num [segA, segB, dist2],
    by norm_num [are_connected_or_close, segA, segB, distLt, dist2],
    find_groups_segsEx_5⟩
  intro s1 s2 t
  have hd : ∀ p q : Pt,
      (((p.1 - q.1) ^ 2 + (p.2 - q.2) ^ 2 : ℚ) : ℝ) = ((dist2 p q : ℚ) : ℝ) :=
    fun p q => rfl
  constructor
  · intro h
    rcases Bool.or_eq_true_iff.mp h with h1 | h4
    · rcases Bool.or_eq_true_iff.mp h1 with h2 | h3
      · rcases Bool.or_eq_true_iff.mp h2 with h5 | h6
        · exact ⟨s1.1, by simp, s2.1, by simp,
            by rw [hd]; exact (distLt_iff_sqrt _ _ _).mp h5⟩
        · exact ⟨s1.1, by simp, s2.2, by simp,
            by rw [hd]; exact (distLt_iff_sqrt _ _ _).mp h6⟩
      · exact ⟨s1.2, by simp, s2.1, by simp,
          by rw [hd]; exact (distLt_iff_sqrt _ _ _).mp h3⟩
    · exact ⟨s1.2, by simp, s2.2, by simp,
        by rw [hd]; exact (distLt_iff_sqrt _ _ _).mp h4⟩
  · rintro ⟨p, hp, q, hq, hlt⟩
    have hpq : distLt p q t = true :=
      (distLt_iff_sqrt p q t).mpr (by rw [← hd]; exact hlt)
    unfold are_connected_or_close
    rcases List.mem_cons.mp hp with rfl | hp2
    · rcases List.mem_cons.mp hq with rfl | hq2
      · simp [hpq]
      · rcases List.mem_singleton.mp hq2 with rfl
        simp [hpq]
    · rcases List.mem_singleton.mp hp2 with rfl
      rcases List.mem_cons.mp hq with rfl | hq2
      · simp [hpq]
      · rcases List.mem_singleton.mp hq2 with rfl
        simp [hpq]

/-- C7: threshold monotonicity of clustering: raising the threshold can only
merge groups, never split them: two segments sharing a group at threshold `t`
still share whatever group the first lands in at any larger threshold. -/
theorem claim_C7_threshold_mono (segs : List Seg) (t t' : ℚ) (htt : t < t') :
    ∀ g ∈ find_groups segs t, ∀ s1 ∈ g, ∀ s2 ∈ g,
      ∀ g' ∈ find_groups segs t', s1 ∈ g' → s2 ∈ g' := by
  intro g hg s1 hs1 s2 hs2 g' hg' hs1'
  have hconn : Conn segs t s1 s2 :=
    (find_groups_spec segs t).2.2.1 g hg s1 hs1 s2 hs2
  have hconn' : Conn segs t' s1 s2 := conn_mono (le_of_lt htt) hconn
  exact conn_in_same_group segs t' hconn' g' hg' hs1'

/-- Witness for C7 at the concrete two-segment input with thresholds 5 < 6. -/
theorem claim_C7_threshold_mono_witness : segB ∈ [segA, segB] :=
  claim_C7_threshold_mono segsEx 5 6 (by norm_num) [segA, segB]
    (by rw [find_groups_segsEx_5]; simp) segA (by simp) segB (by simp)
    [segA, segB] (by rw [find_groups_segsEx_6]; simp) (by simp)

theorem transform_coordinates_parse_none (reproj : Pt → Pt)
    (lines : List (Option ℚ)) (pxs : List Pt) (polys : List PolyArea)
    (hp : parse_jgw lines = none) :
    transform_coordinates reproj lines pxs polys = none := by
  unfold transform_coordinates
  rw [hp]

theorem transform_coordinates_eq_some (reproj : Pt → Pt)
    (lines : List (Option ℚ)) (pxs : List Pt) (polys : List PolyArea)
    (j : JGW) (ps : List PolyArea) (hp : parse_jgw lines = some j)
    (htp : transform_polys j reproj polys = some ps) :
    transform_coordinates reproj lines pxs polys
      = some (pxs.map (transform_point j reproj), ps) := by
  unfold transform_coordinates
  rw [hp]
  dsimp only []
  rw [htp]

theorem transform_coordinates_polys_none (reproj : Pt → Pt)
    (lines : List (Option ℚ)) (pxs : List Pt) (polys : List PolyArea)
    (j : JGW) (hp : parse_jgw lines = some j)
    (htp : transform_polys j reproj polys = none) :
    transform_coordinates reproj lines pxs polys = none := by
  unfold transform_coordinates
  rw [hp]
  dsimp only []
  rw [htp]

/-- C2: when no reprojection transformer is active, every pixel point is
mapped exactly by the affine rule `(A px + B py + C, D px + E py + F)`. -/
theorem claim_C2_affine (reproj : Pt → Pt) (lines : List (Option ℚ))
    (pxs : List Pt) (polys : List PolyArea) (j : JGW)
    (o : List Pt × List PolyArea)
    (hp : parse_jgw lines = some j) (hnt : has_transformer j = false)
    (ho : transform_coordinates reproj lines pxs polys = some o) :
    o.1 = pxs.map (fun p =>
      (j.A * p.1 + j.B * p.2 + j.C, j.D * p.1 + j.E * p.2 + j.F)) := by
  cases htp : transform_polys j reproj polys with
  | none =>
    rw [transform_coordinates_polys_none reproj lines pxs polys j hp htp] at ho
    cases ho
  | some ps =>
    have h2 := transform_coordinates_eq_some reproj lines pxs polys j ps hp htp
    have h3 := Option.some.inj (ho.symm.trans h2)
    rw [h3]
    simp [transform_point, hnt, affine_point]

/-- Witness for C2: the spec-scenario world file
`[0.0002, 0, 0, -0.0002, 13.4, 52.5]` builds no transformer, and pixel
`(100, 50)` maps to `(13.42, 52.49) = (671/50, 5249/100)`. -/
theorem claim_C2_affine_witness :
    parse_jgw linesEx = some jEx ∧
    has_transformer jEx = false ∧
    transform_coordinates id linesEx [(100, 50)] []
      = some ([((671 : ℚ) / 50, (5249 : ℚ) / 100)], []) ∧
    ([((671 : ℚ) / 50, (5249 : ℚ) / 100)], ([] : List PolyArea)).1
      = [((100 : ℚ), (50 : ℚ))].map (fun p =>
          (jEx.A * p.1 + jEx.B * p.2 + jEx.C,
            jEx.D * p.1 + jEx.E * p.2 + jEx.F)) := by
  have hnt : has_transformer jEx = false := by
    norm_num [has_transformer, is_projected, in_envelope, jEx]
  have hval : transform_coordinates id linesEx [(100, 50)] []
      = some ([((671 : ℚ) / 50, (5249 : ℚ) / 100)], []) := by
    rw [transform_coordinates_eq_some id linesEx [(100, 50)] [] jEx [] rfl rfl]
    norm_num [transform_point, hnt, affine_point, jEx]
  exact ⟨rfl, hnt, hval,
    claim_C2_affine id linesEx [(100, 50)] [] jEx
      ([((671 : ℚ) / 50, (5249 : ℚ) / 100)], []) rfl hnt hval⟩

/-- C3: the reprojection transformer is constructed exactly when the
projected-detection heuristic and the UTM envelope both hold; `C = 650000,
F = 5800000` triggers it, `C = 5.2, F = 50.9` does not, and in the latter
case points pass through the affine transform only. -/
theorem claim_C3_gating :
    (∀ j : JGW, has_transformer j = true ↔
      ((1000 < |j.C| ∨ 1000 < |j.F| ∨ 1 < |j.A|) ∧
        (500000 ≤ j.C ∧ j.C ≤ 900000 ∧ 5000000 ≤ j.F ∧ j.F ≤ 6500000))) ∧
    has_transformer jUTM = true ∧
    has_transformer jDeg = false ∧
    (∀ (reproj : Pt → Pt) (p : Pt),
      transform_point jDeg reproj p = affine_point jDeg p) := by
  have hdeg : has_transformer jDeg = false := by
    norm_num [has_transformer, is_projected, in_envelope, jDeg]
  refine ⟨?_, ?_, hdeg, ?_⟩
  · intro j
    simp [has_transformer, is_projected, in_envelope, Bool.and_eq_true,
      decide_eq_true_eq]
  · norm_num [has_transformer, is_projected, in_envelope, jUTM]
  · intro reproj p
    simp [transform_point, hdeg]

/-- Counterexample for C8 as stated: a seven-line, all-numeric world file has
the wrong line count, yet `transform_coordinates` parses its first six lines
and succeeds instead of raising. -/
theorem claim_C8_cex :
    lines7.length ≠ 6 ∧
    parse_jgw lines7 = some ⟨1, 0, 0, -1, 0, 0⟩ ∧
    transform_coordinates id lines7 [] [] = some ([], []) := by
  refine ⟨by simp [lines7], rfl, ?_⟩
  exact transform_coordinates_eq_some id lines7 [] [] ⟨1, 0, 0, -1, 0, 0⟩ []
    rfl rfl

/-- C8 (amended): parsing raises exactly for inputs with fewer than six
lines or a non-numeric value among the first six; any input whose first six
lines are numeric parses them in the order A, D, B, E, C, F (extra lines are
ignored), and a parse failure fails the whole transform for that image. -/
theorem claim_C8_parse :
    (∀ (qa qd qb qe qc qf : ℚ) (rest : List (Option ℚ)),
      parse_jgw (some qa :: some qd :: some qb :: some qe :: some qc ::
        some qf :: rest) = some ⟨qa, qd, qb, qe, qc, qf⟩) ∧
    (∀ lines : List (Option ℚ), lines.length < 6 → parse_jgw lines = none) ∧
    (∀ (la ld lb le2 lc lf : Option ℚ) (rest : List (Option ℚ)),
      (la = none ∨ ld = none ∨ lb = none ∨ le2 = none ∨ lc = none ∨
        lf = none) →
      parse_jgw (la :: ld :: lb :: le2 :: lc :: lf :: rest) = none) ∧
    (∀ (reproj : Pt → Pt) (lines : List (Option ℚ)) (pxs : List Pt)
        (polys : List PolyArea), parse_jgw lines = none →
      transform_coordinates reproj lines pxs polys = none) := by
  refine ⟨fun qa qd qb qe qc qf rest => rfl, ?_, ?_, ?_⟩
  · intro lines hlen
    rcases lines with _ | ⟨a, _ | ⟨b, _ | ⟨c, _ | ⟨d2, _ | ⟨e2, _ | ⟨f2, rest⟩⟩⟩⟩⟩⟩
    · rfl
    · rfl
    · rfl
    · rfl
    · rfl
    · rfl
    · exfalso
      simp only [List.length_cons] at hlen
      omega
  · intro la ld lb le2 lc lf rest h
    rcases la with _ | qa <;> rcases ld with _ | qd <;> rcases lb with _ | qb <;>
      rcases le2 with _ | qe <;> rcases lc with _ | qc <;>
      rcases lf with _ | qf <;> simp_all [parse_jgw]
  · exact fun reproj lines pxs polys =>
      transform_coordinates_parse_none reproj lines pxs polys

/-- Case analysis of one polygon-area entry under the transform: other keys
are untouched, falsy and empty line values leave the entry unchanged, and a
non-empty segment list is replaced by its flattened transform. -/
theorem transform_entry_cases (j : JGW) (reproj : Pt → Pt) (p q : PolyArea)
    (he : transform_entry j reproj p = some q) :
    q.props = p.props ∧
    ((p.line_value = LineValue.falsy ∨ p.line_value = LineValue.segListV []
        ∨ p.line_value = LineValue.ptListV []) → q = p) ∧
    (∀ (sg : Seg) (rest : List Seg),
      p.line_value = LineValue.segListV (sg :: rest) →
      q.line_value = LineValue.ptListV
        (transform_line_values j reproj (sg :: rest))) := by
  unfold transform_entry at he
  cases hlv : p.line_value with
  | falsy =>
    rw [hlv] at he
    dsimp only [] at he
    injection he with hq
    subst hq
    refine ⟨rfl, fun _ => rfl, ?_⟩
    intro sg rest h
    simp at h
  | segListV l =>
    cases l with
    | nil =>
      rw [hlv] at he
      dsimp only [] at he
      injection he with hq
      subst hq
      refine ⟨rfl, fun _ => rfl, ?_⟩
      intro sg rest h
      simp at h
    | cons sg0 rest0 =>
      rw [hlv] at he
      dsimp only [] at he
      injection he with hq
      subst hq
      refine ⟨rfl, ?_, ?_⟩
      · intro h
        rcases h with h | h | h <;> simp at h
      · intro sg rest h
        injection h with h2
        rw [← h2]
  | ptListV l =>
    cases l with
    | nil =>
      rw [hlv] at he
      dsimp only [] at he
      injection he with hq
      subst hq
      refine ⟨rfl, fun _ => rfl, ?_⟩
      intro sg rest h
      simp at h
    | cons a rest0 =>
      rw [hlv] at he
      dsimp only [] at he
      exact Option.noConfusion he

/-- C9: `transform_coordinates` returns its (in-place updated) polygon-areas
list: same length and order, each entry with a non-empty segment list has its
`line_value` key replaced by the flattened alternating-endpoint transformed
coordinates, entries with falsy or empty line values and all other keys are
unchanged. -/
theorem claim_C9_polys (j : JGW) (reproj : Pt → Pt) (lines : List (Option ℚ))
    (pxs : List Pt) (polys out : List PolyArea)
    (hp : parse_jgw lines = some j)
    (htp : transform_polys j reproj polys = some out) :
    transform_coordinates reproj lines pxs polys
      = some (pxs.map (transform_point j reproj), out) ∧
    out.length = polys.length ∧
    (∀ (i : ℕ) (p : PolyArea), polys.get? i = some p →
      ∃ q, out.get? i = some q ∧ q.props = p.props ∧
        ((p.line_value = LineValue.falsy ∨ p.line_value = LineValue.segListV []
            ∨ p.line_value = LineValue.ptListV []) → q = p) ∧
        (∀ (sg : Seg) (rest : List Seg),
          p.line_value = LineValue.segListV (sg :: rest) →
          q.line_value = LineValue.ptListV
            (transform_line_values j reproj (sg :: rest)))) ∧
    (∀ (l : List Seg) (i : ℕ) (sg : Seg), l.get? i = some sg →
      (transform_line_values j reproj l).get? (2 * i)
          = some (transform_point j reproj sg.1) ∧
      (transform_line_values j reproj l).get? (2 * i + 1)
          = some (transform_point j reproj sg.2)) := by
  obtain ⟨hlen, hget⟩ := transform_polys_get j reproj polys out htp
  refine ⟨transform_coordinates_eq_some reproj lines pxs polys j out hp htp,
    hlen, ?_, transform_line_values_get j reproj⟩
  intro i p hp2
  obtain ⟨q, hq, he⟩ := hget i p hp2
  obtain ⟨c1, c2, c3⟩ := transform_entry_cases j reproj p q he
  exact ⟨q, hq, c1, c2, c3⟩

/-- Witness for C9 at a concrete world file and a two-entry polygon list:
the segment entry is flattened and transformed, the falsy entry and all
`props` are untouched. -/
theorem claim_C9_polys_witness :
    transform_coordinates id linesEx [] polysEx = some ([],
      [⟨LineValue.ptListV [((67 : ℚ) / 5, (105 : ℚ) / 2),
          ((671 : ℚ) / 50, (1312 : ℚ) / 25)], 7⟩, polyEntryB]) := by
  have hnt : has_transformer jEx = false := by
    norm_num [has_transformer, is_projected, in_envelope, jEx]
  have htp : transform_polys jEx id polysEx = some
      [⟨LineValue.ptListV [((67 : ℚ) / 5, (105 : ℚ) / 2),
          ((671 : ℚ) / 50, (1312 : ℚ) / 25)], 7⟩, polyEntryB] := by
    norm_num [transform_polys, transform_entry, transform_line_values,
      polysEx, polyEntryA, polyEntryB, transform_point, hnt, affine_point,
      jEx]
  exact (claim_C9_polys jEx id linesEx [] polysEx _ rfl htp).1

/-- Counterexample for C4 as stated: five raw points of which only four are
distinct still reach the spline fit (the code checks the raw count before
deduplicating and only `< 2` after), so on fit success the result is the
smoothed samples, not the pre-smoothing sequence. -/
theorem claim_C4_cex :
    5 ≤ ptsC4.length ∧ (dedupFirst ptsC4).length = 4 ∧
    smooth_path splineC4 0 ptsC4 = [((5 : ℚ), (5 : ℚ))] ∧
    smooth_path splineC4 0 ptsC4 ≠ ptsC4 ∧
    smooth_path splineC4 0 ptsC4 ≠ dedupFirst ptsC4 := by
  have hd : dedupFirst ptsC4 = [(0, 0), (1, 0), (2, 1), (3, 0)] := by
    norm_num [dedupFirst, dedupFirstAux, ptsC4, Prod.ext_iff]
  have hs : smooth_path splineC4 0 ptsC4 = [((5 : ℚ), (5 : ℚ))] := by
    rw [smooth_path, if_neg (by norm_num [ptsC4]), if_neg (by rw [hd]; norm_num)]
    show ([((11 : ℚ) / 2, (5 : ℚ))].map int32_point) = _
    norm_num [int32_point, toInt32, qtrunc]
  refine ⟨by norm_num [ptsC4], by rw [hd]; rfl, hs, ?_, ?_⟩
  · rw [hs]
    simp [ptsC4]
  · rw [hs, hd]
    simp

/-- C4 (amended): `smooth_path` returns the raw input unchanged when it has
fewer than 5 points (before deduplication); otherwise it deduplicates
keeping first occurrences, falls back to the deduplicated sequence when
fewer than 2 distinct points remain or when the spline fit fails, and on
success returns the int32-truncated samples of a spline of degree
`min(3, distinctCount - 1)` resampled at 10 times the distinct count; it
never raises. -/
theorem claim_C4_branches (spline : List Pt → ℚ → ℕ → ℕ → Option (List Pt))
    (sf : ℚ) (pts : List Pt) :
    (pts.length < 5 → smooth_path spline sf pts = pts) ∧
    (5 ≤ pts.length → (dedupFirst pts).length < 2 →
      smooth_path spline sf pts = dedupFirst pts) ∧
    (5 ≤ pts.length → 2 ≤ (dedupFirst pts).length →
      spline (dedupFirst pts) sf (min 3 ((dedupFirst pts).length - 1))
        ((dedupFirst pts).length * 10) = none →
      smooth_path spline sf pts = dedupFirst pts) ∧
    (∀ samples : List Pt, 5 ≤ pts.length → 2 ≤ (dedupFirst pts).length →
      spline (dedupFirst pts) sf (min 3 ((dedupFirst pts).length - 1))
        ((dedupFirst pts).length * 10) = some samples →
      smooth_path spline sf pts = samples.map int32_point) ∧
    (dedupFirst pts).Nodup ∧ (dedupFirst pts).Sublist pts ∧
    (∀ x, x ∈ dedupFirst pts ↔ x ∈ pts) := by
  refine ⟨?_, ?_, ?_, ?_, dedupFirstAux_nodup pts [],
    dedupFirstAux_sublist pts [], dedupFirst_mem pts⟩
  · intro h
    rw [smooth_path, if_pos h]
  · intro h5 h2
    rw [smooth_path, if_neg (by omega), if_pos h2]
  · intro h5 h2 hn
    rw [smooth_path, if_neg (by omega), if_neg (by omega)]
    rw [hn]
  · intro samples h5 h2 hs
    rw [smooth_path, if_neg (by omega), if_neg (by omega)]
    rw [hs]

/-- C5: `filter_zigzag` returns inputs with fewer than 3 points unchanged,
always preserves the first and last points of inputs with at least 2 points,
and keeps an interior point only after a turning-angle tolerance test
between the direction into it (from a previously kept input point) and the
direction out of it (to an input successor). -/
theorem claim_C5_zigzag (dir : Pt → Pt → ℚ) (tol : ℚ) (points : List Pt) :
    (points.length < 3 → filter_zigzag dir tol points = points) ∧
    (2 ≤ points.length →
      (filter_zigzag dir tol points).head? = points.head? ∧
      (filter_zigzag dir tol points).getLast? = points.getLast?) ∧
    (3 ≤ points.length →
      ∀ m ∈ ((filter_zigzag dir tol points).drop 1).dropLast,
        ∃ prev ∈ points, ∃ nxt ∈ points, |dir m nxt - dir prev m| ≤ tol) := by
  refine ⟨?_, ?_, ?_⟩
  · intro h
    rw [filter_zigzag.eq_def, if_pos h]
  · intro h2
    by_cases h3 : points.length < 3
    · rw [filter_zigzag.eq_def, if_pos h3]
      exact ⟨rfl, rfl⟩
    · push_neg at h3
      obtain ⟨p0, rest, rfl⟩ : ∃ p0 rest, points = p0 :: rest := by
        cases points with
        | nil => simp at h2
        | cons a l => exact ⟨a, l, rfl⟩
      obtain ⟨mid, lastP, rfl⟩ : ∃ mid lastP, rest = mid ++ [lastP] := by
        rcases List.eq_nil_or_concat rest with rfl | ⟨l2, a, rfl⟩
        · simp at h3
        · exact ⟨l2, a, by simp⟩
      rw [filter_zigzag_decomp dir tol p0 mid lastP h3]
      refine ⟨rfl, ?_⟩
      rw [show p0 :: (fz_mid dir tol p0 lastP mid ++ [lastP])
          = (p0 :: fz_mid dir tol p0 lastP mid) ++ [lastP] from rfl]
      rw [List.getLast?_concat]
      rw [show p0 :: (mid ++ [lastP]) = (p0 :: mid) ++ [lastP] from rfl]
      rw [List.getLast?_concat]
  · intro h3 m hm
    obtain ⟨p0, rest, rfl⟩ : ∃ p0 rest, points = p0 :: rest := by
      cases points with
      | nil => simp at h3
      | cons a l => exact ⟨a, l, rfl⟩
    obtain ⟨mid, lastP, rfl⟩ : ∃ mid lastP, rest = mid ++ [lastP] := by
      rcases List.eq_nil_or_concat rest with rfl | ⟨l2, a, rfl⟩
      · simp at h3
      · exact ⟨l2, a, by simp⟩
    rw [filter_zigzag_decomp dir tol p0 mid lastP h3] at hm
    rw [show ((p0 :: (fz_mid dir tol p0 lastP mid ++ [lastP])).drop 1)
        = fz_mid dir tol p0 lastP mid ++ [lastP] from rfl] at hm
    rw [List.dropLast_concat] at hm
    obtain ⟨prev, hprev, nxt, hnxt, hle⟩ := fz_mid_mem dir tol mid p0 lastP m hm
    refine ⟨prev, ?_, nxt, ?_, hle⟩
    · rcases List.mem_cons.mp hprev with rfl | h
      · simp
      · simp [h]
    · simp only [List.mem_append, List.mem_cons, List.mem_singleton] at hnxt ⊢
      tauto

/-- C10: when the spline fit succeeds, every coordinate of every returned
point is the real-valued sample truncated toward zero and wrapped modulo
`2^32` into the `int32` range, so the smoothed centerline holds only integer
coordinates in `[-2^31, 2^31)`. -/
theorem claim_C10_int32 (spline : List Pt → ℚ → ℕ → ℕ → Option (List Pt))
    (sf : ℚ) (pts samples : List Pt)
    (h5 : 5 ≤ pts.length) (h2 : 2 ≤ (dedupFirst pts).length)
    (hs : spline (dedupFirst pts) sf (min 3 ((dedupFirst pts).length - 1))
      ((dedupFirst pts).length * 10) = some samples) :
    smooth_path spline sf pts = samples.map int32_point ∧
    ∀ p ∈ smooth_path spline sf pts,
      (∃ n : ℤ, -(2 ^ 31) ≤ n ∧ n < 2 ^ 31 ∧ p.1 = (n : ℚ)) ∧
      (∃ n : ℤ, -(2 ^ 31) ≤ n ∧ n < 2 ^ 31 ∧ p.2 = (n : ℚ)) := by
  have heq : smooth_path spline sf pts = samples.map int32_point := by
    rw [smooth_path, if_neg (by omega), if_neg (by omega)]
    rw [hs]
  refine ⟨heq, ?_⟩
  intro p hp
  rw [heq] at hp
  obtain ⟨q, _, rfl⟩ := List.mem_map.mp hp
  exact ⟨⟨toInt32 q.1, (toInt32_range q.1).1, (toInt32_range q.1).2, rfl⟩,
    ⟨toInt32 q.2, (toInt32_range q.2).1, (toInt32_range q.2).2, rfl⟩⟩

/-- Witness for C10: five distinct points, a spline sample `(7/2, -9/4)`,
and the truncated integer output `(3, -2)`. -/
theorem claim_C10_int32_witness :
    smooth_path splineC10 0 ptsC10
      = [((7 : ℚ) / 2, -((9 : ℚ) / 4))].map int32_point ∧
    smooth_path splineC10 0 ptsC10 = [((3 : ℚ), -(2 : ℚ))] := by
  have hd : dedupFirst ptsC10 = ptsC10 := by
    norm_num [dedupFirst, dedupFirstAux, ptsC10, Prod.ext_iff]
  have h := claim_C10_int32 splineC10 0 ptsC10 [((7 : ℚ) / 2, -((9 : ℚ) / 4))]
    (by norm_num [ptsC10]) (by rw [hd]; norm_num [ptsC10]) rfl
  have h1 : toInt32 ((7 : ℚ) / 2) = 3 := by norm_num [toInt32, qtrunc]
  have hc : ⌈-((9 : ℚ) / 4)⌉ = -2 := by
    rw [Int.ceil_eq_iff]
    norm_num
  have h2 : toInt32 (-((9 : ℚ) / 4)) = -2 := by norm_num [toInt32, qtrunc, hc]
  refine ⟨h.1, ?_⟩
  rw [h.1]
  simp [int32_point, h1, h2]

end TreeProj
